import Mathlib

/-!
Verification of the tokenizer in `src/main.rs` (a small Rust lexer).

The lexer is embedded shallowly: the `Peekable<Chars>` cursor becomes a
`List Char` of remaining input that every operation threads explicitly, and
each Rust method of `Lexer` becomes a Lean function of the same name.

Rust `f64` values produced by `str::parse::<f64>` are modelled as exact
decimal rationals (`ℚ`): every numeric string the lexer can accumulate is a
run of decimal digits and `.` characters, and on such strings the parse
succeeds exactly when the run contains at most one `.` and at least one
digit, yielding its decimal value.  Both the parsed result and a numeric
literal of the specification denote the same decimal, so equalities between
them are faithfully represented by equalities in `ℚ`.

The `unwrap()` in `read_number` panics when the parse fails; a panic is
modelled as an explicit `LexResult.panic` outcome, distinct from a produced
token and from the end-of-sequence signal `LexResult.eof` (Rust `None`).

Unicode caveat: Rust's `char::is_alphabetic`, `is_alphanumeric` and
`is_whitespace` are Unicode-aware; the model uses the ASCII classifiers
`Char.isAlpha`, `Char.isAlphanum` and `Char.isWhitespace`.  Every concrete
input of the specification is ASCII, and no claim depends on the behaviour
of a non-ASCII alphabetic character.
-/

namespace RustLexer

/-- The `Token` enum of `src/main.rs`.  `NumberLiteral` carries the modelled
`f64` value as a rational. -/
inductive Token where
  | Identifier : String → Token
  | NumberLiteral : ℚ → Token
  | Plus : Token
  | Minus : Token
  | Star : Token
  | Slash : Token
  | Caret : Token
  | Equal : Token
  | SemiColon : Token
  | LParen : Token
  | RParen : Token
  | Let : Token
deriving DecidableEq, Repr

/-- Outcome of one `next_token` call: a token (`Some(token)`), the
end-of-sequence signal (`None`), or a panic of the process (the `unwrap()`
in `read_number` on a parse failure). -/
inductive LexResult where
  | token : Token → LexResult
  | eof : LexResult
  | panic : LexResult
deriving DecidableEq, Repr

/-- `Lexer::read_char`: advance the iterator, returning the consumed
character (if any) and the remaining input. -/
def read_char (input : List Char) : Option Char × List Char :=
  match input with
  | [] => (none, [])
  | c :: rest => (some c, rest)

/-- `Lexer::peek_char`: the next character without consuming it. -/
def peek_char (input : List Char) : Option Char :=
  input.head?

/-- `Lexer::is_letter`: alphabetic or underscore. -/
def is_letter (c : Char) : Bool :=
  c.isAlpha || c = '_'

/-- The continuation test of the `read_identifier` loop:
`c.is_alphanumeric() || c == '_'`. -/
def is_word_continue (c : Char) : Bool :=
  c.isAlphanum || c = '_'

/-- The continuation test of the `read_number` loop:
`c.is_digit(10) || c == '.'`. -/
def is_num_continue (c : Char) : Bool :=
  c.isDigit || c = '.'

/-- `Lexer::lookup_keyword`: `"let"` maps to `Let`, every other string to
`Identifier` of the exact scanned text. -/
def lookup_keyword (key : String) : Token :=
  if key = "let" then Token.Let else Token.Identifier key

/-- `Lexer::skip_whitespace`: discard leading whitespace characters. -/
def skip_whitespace : List Char → List Char
  | [] => []
  | c :: rest => if c.isWhitespace then skip_whitespace rest else c :: rest

/-- The accumulation loop of `Lexer::read_identifier`: while the peeked
character is alphanumeric or `'_'`, consume it and push it onto the
accumulated string. -/
def read_identifier_go (acc : List Char) : List Char → List Char × List Char
  | [] => (acc, [])
  | c :: rest =>
    if is_word_continue c then read_identifier_go (acc ++ [c]) rest
    else (acc, c :: rest)

/-- `Lexer::read_identifier`: the accumulated string (seeded with the
already-consumed character `c`) and the remaining input. -/
def read_identifier (c : Char) (input : List Char) : String × List Char :=
  let r := read_identifier_go [c] input
  (String.mk r.1, r.2)

/-- The accumulation loop of `Lexer::read_number`: while the peeked
character is a decimal digit or `'.'`, consume it and push it. -/
def read_number_go (acc : List Char) : List Char → List Char × List Char
  | [] => (acc, [])
  | c :: rest =>
    if is_num_continue c then read_number_go (acc ++ [c]) rest
    else (acc, c :: rest)

/-- Value of a list of decimal digit characters read as a base-10 natural. -/
def digitsToNat (cs : List Char) : Nat :=
  cs.foldl (fun acc c => 10 * acc + (c.toNat - '0'.toNat)) 0

/-- Model of Rust `str::parse::<f64>` on the strings `read_number` can
accumulate (runs of decimal digits and `.`): the parse succeeds exactly when
the run holds at most one `.` and at least one digit, and yields the exact
decimal value as a rational. -/
def parse_f64 (s : String) : Option ℚ :=
  let cs := s.data
  if (cs.all fun c => c.isDigit || c = '.') ∧ cs.count '.' ≤ 1 ∧
      (cs.any fun c => c.isDigit) then
    let ip := cs.takeWhile fun c => c ≠ '.'
    let fp := (cs.dropWhile fun c => c ≠ '.').drop 1
    some (mkRat (digitsToNat ip * 10 ^ fp.length + digitsToNat fp) (10 ^ fp.length))
  else none

/-- `Lexer::read_number`: the accumulated digit/`.` run (seeded with `c`)
parsed as an `f64`, and the remaining input.  A `none` first component is
the parse failure on which the source's `unwrap()` panics. -/
def read_number (c : Char) (input : List Char) : Option ℚ × List Char :=
  let r := read_number_go [c] input
  (parse_f64 (String.mk r.1), r.2)

/-- `Lexer::next_token`: skip whitespace, commit one character, dispatch. -/
def next_token (input : List Char) : LexResult × List Char :=
  match read_char (skip_whitespace input) with
  | (none, rest) => (LexResult.eof, rest)
  | (some c, rest) =>
    if c = '=' then (LexResult.token Token.Equal, rest)
    else if c = '+' then (LexResult.token Token.Plus, rest)
    else if c = '-' then (LexResult.token Token.Minus, rest)
    else if c = '*' then (LexResult.token Token.Star, rest)
    else if c = '/' then (LexResult.token Token.Slash, rest)
    else if c = '^' then (LexResult.token Token.Caret, rest)
    else if c = ';' then (LexResult.token Token.SemiColon, rest)
    else if c = '(' then (LexResult.token Token.LParen, rest)
    else if c = ')' then (LexResult.token Token.RParen, rest)
    else if is_letter c then
      let r := read_identifier c rest
      (LexResult.token (lookup_keyword r.1), r.2)
    else if c.isDigit then
      match read_number c rest with
      | (some v, rest2) => (LexResult.token (Token.NumberLiteral v), rest2)
      | (none, rest2) => (LexResult.panic, rest2)
    else (LexResult.eof, rest)

/-- The driver loop of `main`, with explicit fuel for structural recursion:
pull tokens until `next_token` yields `eof` (normal exhaustion, second
component `false`) or the process panics (second component `true`). -/
def tokenize_fuel : Nat → List Char → List Token × Bool
  | 0, _ => ([], false)
  | fuel + 1, input =>
    match next_token input with
    | (LexResult.token t, rest) =>
      let r := tokenize_fuel fuel rest
      (t :: r.1, r.2)
    | (LexResult.eof, _) => ([], false)
    | (LexResult.panic, _) => ([], true)

/-- The driver loop of `main`: the list of tokens printed before the loop
stops, and whether it stopped by panicking (`true`) rather than by the
end-of-sequence signal (`false`).  `input.length + 1` fuel is always enough
because every produced token consumes at least one character. -/
def tokenize (input : List Char) : List Token × Bool :=
  tokenize_fuel (input.length + 1) input

/-- The nine single-character operators of the dispatch step. -/
def is_op (c : Char) : Bool :=
  c = '=' || c = '+' || c = '-' || c = '*' || c = '/' || c = '^' ||
  c = ';' || c = '(' || c = ')'

/-- The fixed token emitted for each of the nine operator characters. -/
def op_token (c : Char) : Token :=
  if c = '=' then Token.Equal
  else if c = '+' then Token.Plus
  else if c = '-' then Token.Minus
  else if c = '*' then Token.Star
  else if c = '/' then Token.Slash
  else if c = '^' then Token.Caret
  else if c = ';' then Token.SemiColon
  else if c = '(' then Token.LParen
  else Token.RParen

/-- One token-sized run of source characters: an operator character, a
word run (identifier or keyword), or a digit-initial numeric run. -/
inductive Seg where
  | op : Char → Seg
  | word : Char → List Char → Seg
  | num : Char → List Char → Seg
deriving DecidableEq, Repr

/-- The source characters of a segment. -/
def Seg.chars : Seg → List Char
  | op c => [c]
  | word c cs => c :: cs
  | num c cs => c :: cs

/-- Well-formedness of a segment: an operator character; a word-start
character followed by word-continue characters; or a digit followed by
digits and dots with at most one `.` in the whole run (so that the source's
`f64` parse succeeds). -/
def Seg.ok : Seg → Bool
  | op c => is_op c
  | word c cs => is_letter c && cs.all is_word_continue
  | num c cs =>
    c.isDigit && cs.all is_num_continue && decide ((c :: cs).count '.' ≤ 1)

/-- The token the lexer emits for a well-formed segment. -/
def Seg.token : Seg → Token
  | op c => op_token c
  | word c cs => lookup_keyword (String.mk (c :: cs))
  | num c cs => Token.NumberLiteral ((parse_f64 (String.mk (c :: cs))).getD 0)

/-- Whether character `d` may directly follow the segment without being
absorbed into it by the lexer's maximal-run scanning. -/
def Seg.sep : Seg → Char → Bool
  | op _, _ => true
  | word _ _, d => !is_word_continue d
  | num _ _, d => !is_num_continue d

/-- Whether the segment is properly delimited from the text that follows. -/
def head_sep (s : Seg) (tail : List Char) : Bool :=
  match tail with
  | [] => true
  | d :: _ => s.sep d

/-- Interleave whitespace runs with segments: each piece contributes its
whitespace run followed by its segment's characters; `trailing` closes the
text. -/
def assemble (pieces : List (List Char × Seg)) (trailing : List Char) : List Char :=
  match pieces with
  | [] => trailing
  | (ws, s) :: rest => ws ++ s.chars ++ assemble rest trailing

/-- A valid decomposition: every whitespace run is whitespace, every
segment is well-formed, and every segment is delimited from what follows. -/
def valid (pieces : List (List Char × Seg)) (trailing : List Char) : Bool :=
  match pieces with
  | [] => trailing.all Char.isWhitespace
  | (ws, s) :: rest =>
    ws.all Char.isWhitespace && s.ok && head_sep s (assemble rest trailing) &&
      valid rest trailing

/-- Decision procedure for the amended completeness hypothesis: the text
splits into whitespace, operator characters, maximal word runs, and maximal
digit-initial numeric runs in which at most one `.` occurs. -/
def supported : List Char → Bool
  | [] => true
  | c :: rest =>
    if c.isWhitespace then supported rest
    else if is_op c then supported rest
    else if is_letter c then supported (rest.dropWhile is_word_continue)
    else if c.isDigit then
      decide ((c :: rest.takeWhile is_num_continue).count '.' ≤ 1) &&
        supported (rest.dropWhile is_num_continue)
    else false
termination_by input => input.length
decreasing_by
  · simp only [List.length_cons]
    exact Nat.lt_succ_of_le (Nat.le_refl _)
  · simp only [List.length_cons]
    exact Nat.lt_succ_of_le (Nat.le_refl _)
  · simp only [List.length_cons]
    exact Nat.lt_succ_of_le (List.dropWhile_sublist is_word_continue).length_le
  · simp only [List.length_cons]
    exact Nat.lt_succ_of_le (List.dropWhile_sublist is_num_continue).length_le

theorem ne_of_true_of_false {c d : Char} (p : Char → Bool) (h : p c = true)
    (hd : p d = false) : c ≠ d := by
  intro he
  rw [he, hd] at h
  exact Bool.noConfusion h

theorem ws_cases {c : Char} (h : c.isWhitespace = true) :
    c = ' ' ∨ c = '\t' ∨ c = '\r' ∨ c = '\n' := by
  simpa [Char.isWhitespace, or_assoc] using h

theorem is_letter_not_ws {c : Char} (h : is_letter c = true) :
    c.isWhitespace = false := by
  cases hw : c.isWhitespace with
  | false => rfl
  | true =>
    rcases ws_cases hw with rfl | rfl | rfl | rfl <;> exact absurd h (by decide)

theorem isDigit_not_ws {c : Char} (h : c.isDigit = true) :
    c.isWhitespace = false := by
  cases hw : c.isWhitespace with
  | false => rfl
  | true =>
    rcases ws_cases hw with rfl | rfl | rfl | rfl <;> exact absurd h (by decide)

theorem ws_not_word_continue {c : Char} (h : c.isWhitespace = true) :
    is_word_continue c = false := by
  rcases ws_cases h with rfl | rfl | rfl | rfl <;> decide

theorem ws_not_num_continue {c : Char} (h : c.isWhitespace = true) :
    is_num_continue c = false := by
  rcases ws_cases h with rfl | rfl | rfl | rfl <;> decide

theorem isDigit_val {c : Char} (h : c.isDigit = true) :
    48 ≤ c.val.toNat ∧ c.val.toNat ≤ 57 := by
  simp only [Char.isDigit, Bool.and_eq_true, decide_eq_true_eq, ge_iff_le] at h
  exact ⟨h.1, h.2⟩

theorem isDigit_not_letter {c : Char} (h : c.isDigit = true) :
    is_letter c = false := by
  have hv := isDigit_val h
  cases hl : is_letter c with
  | false => rfl
  | true =>
    exfalso
    simp only [is_letter, Char.isAlpha, Char.isUpper, Char.isLower, Bool.or_eq_true,
      Bool.and_eq_true, decide_eq_true_eq, ge_iff_le] at hl
    rcases hl with (⟨h1, h2⟩ | ⟨h1, h2⟩) | rfl
    · have l1 : (65 : UInt32).toNat ≤ c.val.toNat := h1
      have e1 : (65 : UInt32).toNat = 65 := rfl
      rw [e1] at l1
      omega
    · have l1 : (97 : UInt32).toNat ≤ c.val.toNat := h1
      have e1 : (97 : UInt32).toNat = 97 := rfl
      rw [e1] at l1
      omega
    · have e : ('_').val.toNat = 95 := rfl
      rw [e] at hv
      omega

theorem op_facts {c : Char} (h : is_op c = true) :
    c.isWhitespace = false ∧ is_letter c = false ∧ c.isDigit = false ∧
      is_word_continue c = false ∧ is_num_continue c = false := by
  simp only [is_op, Bool.or_eq_true, decide_eq_true_eq] at h
  rcases h with ((((((((rfl | rfl) | rfl) | rfl) | rfl) | rfl) | rfl) | rfl) | rfl) <;> decide

theorem is_letter_is_word_continue {c : Char} (h : is_letter c = true) :
    is_word_continue c = true := by
  simp only [is_letter, Bool.or_eq_true] at h
  simp only [is_word_continue, Char.isAlphanum, Bool.or_eq_true]
  rcases h with h | h
  · exact Or.inl (Or.inl h)
  · exact Or.inr h

theorem isDigit_is_num_continue {c : Char} (h : c.isDigit = true) :
    is_num_continue c = true := by
  simp [is_num_continue, h]

theorem skip_whitespace_length (input : List Char) :
    (skip_whitespace input).length ≤ input.length := by
  induction input with
  | nil => simp [skip_whitespace]
  | cons c rest ih =>
    simp only [skip_whitespace]
    split
    · exact Nat.le_trans ih (Nat.le_succ _)
    · exact Nat.le_refl _

theorem skip_whitespace_cons_of_not_ws {c : Char} (rest : List Char)
    (h : c.isWhitespace = false) : skip_whitespace (c :: rest) = c :: rest := by
  simp [skip_whitespace, h]

theorem skip_whitespace_append {ws : List Char} (input : List Char)
    (h : ∀ c ∈ ws, c.isWhitespace = true) :
    skip_whitespace (ws ++ input) = skip_whitespace input := by
  induction ws with
  | nil => rfl
  | cons c ws' ih =>
    have hc : c.isWhitespace = true := h c (List.mem_cons_self c ws')
    simp only [List.cons_append, skip_whitespace, hc, if_true]
    exact ih fun d hd => h d (List.mem_cons_of_mem c hd)

theorem skip_whitespace_all_ws {input : List Char}
    (h : ∀ c ∈ input, c.isWhitespace = true) : skip_whitespace input = [] := by
  have := skip_whitespace_append ([] : List Char) h
  simpa using this

theorem dropWhile_length (p : Char → Bool) (input : List Char) :
    (input.dropWhile p).length ≤ input.length := by
  induction input with
  | nil => simp
  | cons c rest ih =>
    simp only [List.dropWhile_cons]
    split
    · exact Nat.le_trans ih (Nat.le_succ _)
    · exact Nat.le_refl _

theorem read_identifier_go_spec (input : List Char) : ∀ acc,
    read_identifier_go acc input =
      (acc ++ input.takeWhile is_word_continue, input.dropWhile is_word_continue) := by
  induction input with
  | nil => intro acc; simp [read_identifier_go]
  | cons c rest ih =>
    intro acc
    by_cases hc : is_word_continue c = true
    · simp [read_identifier_go, hc, ih]
    · have hc' : is_word_continue c = false := by
        cases h : is_word_continue c
        · rfl
        · exact absurd h hc
      simp [read_identifier_go, hc']

theorem read_number_go_spec (input : List Char) : ∀ acc,
    read_number_go acc input =
      (acc ++ input.takeWhile is_num_continue, input.dropWhile is_num_continue) := by
  induction input with
  | nil => intro acc; simp [read_number_go]
  | cons c rest ih =>
    intro acc
    by_cases hc : is_num_continue c = true
    · simp [read_number_go, hc, ih]
    · have hc' : is_num_continue c = false := by
        cases h : is_num_continue c
        · rfl
        · exact absurd h hc
      simp [read_number_go, hc']

theorem next_token_ws_append {ws : List Char} (input : List Char)
    (h : ∀ c ∈ ws, c.isWhitespace = true) :
    next_token (ws ++ input) = next_token input := by
  unfold next_token
  rw [skip_whitespace_append input h]

theorem next_token_all_ws {input : List Char}
    (h : ∀ c ∈ input, c.isWhitespace = true) :
    next_token input = (LexResult.eof, []) := by
  unfold next_token
  rw [skip_whitespace_all_ws h]
  rfl

theorem next_token_op {c : Char} (rest : List Char) (h : is_op c = true) :
    next_token (c :: rest) = (LexResult.token (op_token c), rest) := by
  simp only [is_op, Bool.or_eq_true, decide_eq_true_eq] at h
  rcases h with ((((((((rfl | rfl) | rfl) | rfl) | rfl) | rfl) | rfl) | rfl) | rfl) <;> rfl

theorem next_token_word {c : Char} (rest : List Char) (h : is_letter c = true) :
    next_token (c :: rest) =
      (LexResult.token (lookup_keyword (String.mk (c :: rest.takeWhile is_word_continue))),
        rest.dropWhile is_word_continue) := by
  have h1 : c ≠ '=' := ne_of_true_of_false is_letter h (by decide)
  have h2 : c ≠ '+' := ne_of_true_of_false is_letter h (by decide)
  have h3 : c ≠ '-' := ne_of_true_of_false is_letter h (by decide)
  have h4 : c ≠ '*' := ne_of_true_of_false is_letter h (by decide)
  have h5 : c ≠ '/' := ne_of_true_of_false is_letter h (by decide)
  have h6 : c ≠ '^' := ne_of_true_of_false is_letter h (by decide)
  have h7 : c ≠ ';' := ne_of_true_of_false is_letter h (by decide)
  have h8 : c ≠ '(' := ne_of_true_of_false is_letter h (by decide)
  have h9 : c ≠ ')' := ne_of_true_of_false is_letter h (by decide)
  unfold next_token
  rw [skip_whitespace_cons_of_not_ws rest (is_letter_not_ws h)]
  simp [read_char, h1, h2, h3, h4, h5, h6, h7, h8, h9, h,
    read_identifier, read_identifier_go_spec]

theorem next_token_digit {c : Char} (rest : List Char) (h : c.isDigit = true) :
    next_token (c :: rest) =
      (match parse_f64 (String.mk (c :: rest.takeWhile is_num_continue)) with
        | some v => (LexResult.token (Token.NumberLiteral v), rest.dropWhile is_num_continue)
        | none => (LexResult.panic, rest.dropWhile is_num_continue)) := by
  have h1 : c ≠ '=' := ne_of_true_of_false Char.isDigit h (by decide)
  have h2 : c ≠ '+' := ne_of_true_of_false Char.isDigit h (by decide)
  have h3 : c ≠ '-' := ne_of_true_of_false Char.isDigit h (by decide)
  have h4 : c ≠ '*' := ne_of_true_of_false Char.isDigit h (by decide)
  have h5 : c ≠ '/' := ne_of_true_of_false Char.isDigit h (by decide)
  have h6 : c ≠ '^' := ne_of_true_of_false Char.isDigit h (by decide)
  have h7 : c ≠ ';' := ne_of_true_of_false Char.isDigit h (by decide)
  have h8 : c ≠ '(' := ne_of_true_of_false Char.isDigit h (by decide)
  have h9 : c ≠ ')' := ne_of_true_of_false Char.isDigit h (by decide)
  have hl : is_letter c = false := isDigit_not_letter h
  unfold next_token
  rw [skip_whitespace_cons_of_not_ws rest (isDigit_not_ws h)]
  simp only [read_char, if_neg h1, if_neg h2, if_neg h3, if_neg h4, if_neg h5, if_neg h6,
    if_neg h7, if_neg h8, if_neg h9, hl, Bool.false_eq_true, if_false, h, if_true,
    read_number, read_number_go_spec, List.singleton_append]
  cases parse_f64 (String.mk (c :: rest.takeWhile is_num_continue)) <;> rfl

theorem next_token_digit_some {c : Char} {v : ℚ} (rest : List Char) (h : c.isDigit = true)
    (hp : parse_f64 (String.mk (c :: rest.takeWhile is_num_continue)) = some v) :
    next_token (c :: rest) =
      (LexResult.token (Token.NumberLiteral v), rest.dropWhile is_num_continue) := by
  rw [next_token_digit rest h, hp]

theorem next_token_digit_none {c : Char} (rest : List Char) (h : c.isDigit = true)
    (hp : parse_f64 (String.mk (c :: rest.takeWhile is_num_continue)) = none) :
    next_token (c :: rest) = (LexResult.panic, rest.dropWhile is_num_continue) := by
  rw [next_token_digit rest h, hp]

set_option maxHeartbeats 2000000 in
theorem next_token_unrecognized {c : Char} (rest : List Char) (hws : c.isWhitespace = false)
    (hop : is_op c = false) (hl : is_letter c = false) (hd : c.isDigit = false) :
    next_token (c :: rest) = (LexResult.eof, rest) := by
  simp only [is_op, Bool.or_eq_false_iff, decide_eq_false_iff_not] at hop
  obtain ⟨⟨⟨⟨⟨⟨⟨⟨h1, h2⟩, h3⟩, h4⟩, h5⟩, h6⟩, h7⟩, h8⟩, h9⟩ := hop
  unfold next_token
  rw [skip_whitespace_cons_of_not_ws rest hws]
  simp only [read_char, if_neg h1, if_neg h2, if_neg h3, if_neg h4, if_neg h5, if_neg h6,
    if_neg h7, if_neg h8, if_neg h9, hl, hd, Bool.false_eq_true, if_false]

theorem skip_whitespace_head_not_ws : ∀ {input : List Char} {c : Char} {tl : List Char},
    skip_whitespace input = c :: tl → c.isWhitespace = false := by
  intro input
  induction input with
  | nil => intro c tl h; exact absurd h (by simp [skip_whitespace])
  | cons d rest ih =>
    intro c tl h
    simp only [skip_whitespace] at h
    by_cases hd : d.isWhitespace = true
    · rw [if_pos hd] at h
      exact ih h
    · rw [if_neg hd] at h
      cases h
      cases hw : d.isWhitespace
      · rfl
      · exact absurd hw hd

theorem next_token_skip (input : List Char) :
    next_token input = next_token (skip_whitespace input) := by
  cases hs : skip_whitespace input with
  | nil =>
    unfold next_token
    rw [hs]
    rfl
  | cons c tl =>
    have hc : c.isWhitespace = false := skip_whitespace_head_not_ws hs
    unfold next_token
    rw [hs, skip_whitespace_cons_of_not_ws tl hc]

theorem next_token_rest_length {input : List Char} {c : Char} {tl : List Char}
    (hs : skip_whitespace input = c :: tl) :
    (next_token input).2.length ≤ tl.length := by
  have hc : c.isWhitespace = false := skip_whitespace_head_not_ws hs
  have he : next_token input = next_token (c :: tl) := by
    rw [next_token_skip input, hs]
  rw [he]
  cases hop : is_op c with
  | true =>
    rw [next_token_op tl hop]
  | false =>
    cases hl : is_letter c with
    | true =>
      rw [next_token_word tl hl]
      exact dropWhile_length _ _
    | false =>
      cases hd : c.isDigit with
      | true =>
        rw [next_token_digit tl hd]
        cases parse_f64 (String.mk (c :: tl.takeWhile is_num_continue)) with
        | some v => exact dropWhile_length _ _
        | none => exact dropWhile_length _ _
      | false =>
        rw [next_token_unrecognized tl hc hop hl hd]

theorem next_token_progress {input : List Char} {t : Token} {rest : List Char}
    (h : next_token input = (LexResult.token t, rest)) : rest.length < input.length := by
  cases hs : skip_whitespace input with
  | nil =>
    unfold next_token at h
    rw [hs] at h
    simp [read_char] at h
  | cons c tl =>
    have h1 : (next_token input).2.length ≤ tl.length := next_token_rest_length hs
    rw [h] at h1
    have h2 : (c :: tl).length ≤ input.length := by
      rw [← hs]; exact skip_whitespace_length input
    simp only [List.length_cons] at h2
    exact Nat.lt_of_le_of_lt h1 (Nat.lt_of_lt_of_le (Nat.lt_succ_self _) h2)

theorem tokenize_fuel_congr : ∀ f₁ f₂ : Nat, ∀ input : List Char,
    input.length < f₁ → input.length < f₂ →
    tokenize_fuel f₁ input = tokenize_fuel f₂ input := by
  intro f₁
  induction f₁ with
  | zero => intro f₂ input h₁ _; exact absurd h₁ (Nat.not_lt_zero _)
  | succ f₁ ih =>
    intro f₂ input h₁ h₂
    cases f₂ with
    | zero => exact absurd h₂ (Nat.not_lt_zero _)
    | succ f₂ =>
      simp only [tokenize_fuel]
      cases hnt : next_token input with
      | mk r rest =>
        cases r with
        | token t =>
          have hlt : rest.length < input.length := next_token_progress hnt
          show (t :: (tokenize_fuel f₁ rest).1, (tokenize_fuel f₁ rest).2) =
            (t :: (tokenize_fuel f₂ rest).1, (tokenize_fuel f₂ rest).2)
          rw [ih f₂ rest (Nat.lt_of_lt_of_le hlt (Nat.le_of_lt_succ h₁))
            (Nat.lt_of_lt_of_le hlt (Nat.le_of_lt_succ h₂))]
        | eof => rfl
        | panic => rfl

theorem tokenize_fuel_step {input : List Char} {t : Token} {rest : List Char} (fuel : Nat)
    (h : next_token input = (LexResult.token t, rest)) :
    tokenize_fuel (fuel + 1) input =
      (t :: (tokenize_fuel fuel rest).1, (tokenize_fuel fuel rest).2) := by
  simp only [tokenize_fuel, h]

theorem tokenize_eq_token {input : List Char} {t : Token} {rest : List Char}
    (h : next_token input = (LexResult.token t, rest)) :
    tokenize input = (t :: (tokenize rest).1, (tokenize rest).2) := by
  have hlt : rest.length < input.length := next_token_progress h
  unfold tokenize
  rw [tokenize_fuel_step input.length h]
  rw [tokenize_fuel_congr input.length (rest.length + 1) rest hlt (Nat.lt_succ_self _)]

theorem tokenize_eq_eof {input : List Char} {rest : List Char}
    (h : next_token input = (LexResult.eof, rest)) : tokenize input = ([], false) := by
  unfold tokenize
  simp only [tokenize_fuel, h]

theorem tokenize_eq_panic {input : List Char} {rest : List Char}
    (h : next_token input = (LexResult.panic, rest)) : tokenize input = ([], true) := by
  unfold tokenize
  simp only [tokenize_fuel, h]

theorem tokenize_ws_append {ws : List Char} (input : List Char)
    (h : ∀ c ∈ ws, c.isWhitespace = true) :
    tokenize (ws ++ input) = tokenize input := by
  cases hnt : next_token input with
  | mk r rest =>
    have hnt' : next_token (ws ++ input) = (r, rest) := by
      rw [next_token_ws_append input h, hnt]
    cases r with
    | token t => rw [tokenize_eq_token hnt', tokenize_eq_token hnt]
    | eof => rw [tokenize_eq_eof hnt', tokenize_eq_eof hnt]
    | panic => rw [tokenize_eq_panic hnt', tokenize_eq_panic hnt]

theorem tokenize_all_ws {input : List Char}
    (h : ∀ c ∈ input, c.isWhitespace = true) : tokenize input = ([], false) := by
  exact tokenize_eq_eof (next_token_all_ws h)

theorem parse_f64_some_iff (s : String) :
    (∃ q, parse_f64 s = some q) ↔
      ((s.data.all fun c => c.isDigit || c = '.') = true ∧ s.data.count '.' ≤ 1 ∧
        (s.data.any fun c => c.isDigit) = true) := by
  by_cases h : (s.data.all fun c => c.isDigit || c = '.') = true ∧
      s.data.count '.' ≤ 1 ∧ (s.data.any fun c => c.isDigit) = true
  · simp [parse_f64, h]
  · simp [parse_f64, h]

theorem run_takeWhile {p : Char → Bool} {cs tail : List Char} (hcs : cs.all p = true)
    (hstop : ∀ d, tail.head? = some d → p d = false) :
    (cs ++ tail).takeWhile p = cs ∧ (cs ++ tail).dropWhile p = tail := by
  have h1 : ∀ a ∈ cs, p a = true := by simpa [List.all_eq_true] using hcs
  constructor
  · rw [List.takeWhile_append_of_pos h1]
    cases tail with
    | nil => simp
    | cons d t =>
      have hd := hstop d rfl
      simp [List.takeWhile_cons, hd]
  · rw [List.dropWhile_append_of_pos h1]
    cases tail with
    | nil => simp
    | cons d t =>
      have hd := hstop d rfl
      simp [List.dropWhile_cons, hd]

theorem head_sep_stop {s : Seg} {tail : List Char} (h : head_sep s tail = true)
    {p : Char → Bool} (hp : ∀ d, s.sep d = true → p d = false) :
    ∀ d, tail.head? = some d → p d = false := by
  intro d hd
  cases tail with
  | nil => exact absurd hd (by simp)
  | cons e t =>
    simp only [List.head?_cons, Option.some.injEq] at hd
    subst hd
    exact hp e h

theorem next_token_seg {s : Seg} (tail : List Char) (hok : s.ok = true)
    (hsep : head_sep s tail = true) :
    next_token (s.chars ++ tail) = (LexResult.token s.token, tail) := by
  cases s with
  | op c =>
    simp only [Seg.ok] at hok
    simp only [Seg.chars, List.singleton_append, Seg.token]
    exact next_token_op tail hok
  | word c cs =>
    simp only [Seg.ok, Bool.and_eq_true] at hok
    obtain ⟨hl, hcs⟩ := hok
    have hstop : ∀ d, tail.head? = some d → is_word_continue d = false :=
      head_sep_stop hsep fun d hd => by simpa [Seg.sep] using hd
    obtain ⟨htake, hdrop⟩ := run_takeWhile hcs hstop
    simp only [Seg.chars, List.cons_append, Seg.token]
    rw [next_token_word (cs ++ tail) hl, htake, hdrop]
  | num c cs =>
    simp only [Seg.ok, Bool.and_eq_true, decide_eq_true_eq] at hok
    obtain ⟨⟨hd, hcs⟩, hcount⟩ := hok
    have hstop : ∀ d, tail.head? = some d → is_num_continue d = false :=
      head_sep_stop hsep fun d hd => by simpa [Seg.sep] using hd
    obtain ⟨htake, hdrop⟩ := run_takeWhile hcs hstop
    have hparse : ∃ q, parse_f64 (String.mk (c :: cs)) = some q := by
      rw [parse_f64_some_iff]
      refine ⟨?_, ?_, ?_⟩
      · simp only [List.all_cons, Bool.and_eq_true, Bool.or_eq_true]
        exact ⟨Or.inl hd, hcs⟩
      · exact hcount
      · simp only [List.any_cons, Bool.or_eq_true]
        exact Or.inl hd
    obtain ⟨q, hq⟩ := hparse
    simp only [Seg.chars, List.cons_append, Seg.token, hq, Option.getD_some]
    rw [next_token_digit_some (cs ++ tail) hd (by rw [htake]; exact hq), hdrop]

theorem tokenize_assemble : ∀ (pieces : List (List Char × Seg)) (trailing : List Char),
    valid pieces trailing = true →
    tokenize (assemble pieces trailing) = (pieces.map fun p => p.2.token, false) := by
  intro pieces
  induction pieces with
  | nil =>
    intro trailing hv
    simp only [valid] at hv
    simp only [assemble, List.map_nil]
    exact tokenize_all_ws (by simpa [List.all_eq_true] using hv)
  | cons p rest ih =>
    intro trailing hv
    obtain ⟨ws, s⟩ := p
    simp only [valid, Bool.and_eq_true] at hv
    obtain ⟨⟨⟨hws, hok⟩, hsep⟩, hrest⟩ := hv
    simp only [assemble, List.map_cons]
    rw [List.append_assoc]
    rw [tokenize_ws_append _ (by simpa [List.all_eq_true] using hws)]
    rw [tokenize_eq_token (next_token_seg _ hok hsep)]
    rw [ih trailing hrest]

theorem head?_dropWhile_false {p : Char → Bool} {l : List Char} {d : Char}
    (h : (l.dropWhile p).head? = some d) : p d = false := by
  have := List.head?_dropWhile_not p l
  rw [h] at this
  exact this

theorem head_sep_word_dropWhile (c : Char) (cs l : List Char) :
    head_sep (Seg.word c cs) (l.dropWhile is_word_continue) = true := by
  cases hr : l.dropWhile is_word_continue with
  | nil => rfl
  | cons d t =>
    simp only [head_sep, Seg.sep, Bool.not_eq_true']
    exact head?_dropWhile_false (l := l) (by rw [hr]; rfl)

theorem head_sep_num_dropWhile (c : Char) (cs l : List Char) :
    head_sep (Seg.num c cs) (l.dropWhile is_num_continue) = true := by
  cases hr : l.dropWhile is_num_continue with
  | nil => rfl
  | cons d t =>
    simp only [head_sep, Seg.sep, Bool.not_eq_true']
    exact head?_dropWhile_false (l := l) (by rw [hr]; rfl)

theorem head_sep_op (c : Char) (l : List Char) : head_sep (Seg.op c) l = true := by
  cases l <;> rfl

theorem supported_decomp : ∀ (n : Nat) (input : List Char), input.length ≤ n →
    supported input = true →
    ∃ pieces trailing, valid pieces trailing = true ∧ assemble pieces trailing = input := by
  intro n
  induction n with
  | zero =>
    intro input hlen _
    have hnil : input = [] := List.eq_nil_of_length_eq_zero (Nat.le_zero.mp hlen)
    subst hnil
    exact ⟨[], [], rfl, rfl⟩
  | succ n ih =>
    intro input hlen hsup
    cases input with
    | nil => exact ⟨[], [], rfl, rfl⟩
    | cons c rest =>
      have hlen' : rest.length ≤ n := by
        simp only [List.length_cons] at hlen
        omega
      simp only [supported] at hsup
      by_cases hws : c.isWhitespace = true
      · rw [if_pos hws] at hsup
        obtain ⟨pieces, trailing, hv, ha⟩ := ih rest hlen' hsup
        cases pieces with
        | nil =>
          refine ⟨[], c :: trailing, ?_, ?_⟩
          · simp only [valid, List.all_cons, Bool.and_eq_true] at hv ⊢
            exact ⟨hws, hv⟩
          · simp only [assemble] at ha ⊢
            rw [ha]
        | cons p ps =>
          obtain ⟨ws, s⟩ := p
          simp only [valid, Bool.and_eq_true] at hv
          obtain ⟨⟨⟨hws', hok⟩, hsep⟩, hvrest⟩ := hv
          refine ⟨(c :: ws, s) :: ps, trailing, ?_, ?_⟩
          · simp only [valid, List.all_cons, Bool.and_eq_true]
            exact ⟨⟨⟨⟨hws, hws'⟩, hok⟩, hsep⟩, hvrest⟩
          · simp only [assemble, List.cons_append] at ha ⊢
            rw [ha]
      · by_cases hop : is_op c = true
        · rw [if_neg hws, if_pos hop] at hsup
          obtain ⟨pieces, trailing, hv, ha⟩ := ih rest hlen' hsup
          refine ⟨([], Seg.op c) :: pieces, trailing, ?_, ?_⟩
          · simp only [valid, Bool.and_eq_true]
            exact ⟨⟨⟨rfl, hop⟩, head_sep_op c _⟩, hv⟩
          · simp only [assemble, Seg.chars, List.nil_append, List.singleton_append]
            rw [ha]
        · by_cases hl : is_letter c = true
          · rw [if_neg hws, if_neg hop, if_pos hl] at hsup
            have hlen2 : (rest.dropWhile is_word_continue).length ≤ n :=
              Nat.le_trans (List.dropWhile_sublist _).length_le hlen'
            obtain ⟨pieces, trailing, hv, ha⟩ := ih _ hlen2 hsup
            refine ⟨([], Seg.word c (rest.takeWhile is_word_continue)) :: pieces,
              trailing, ?_, ?_⟩
            · simp only [valid, Bool.and_eq_true]
              refine ⟨⟨⟨rfl, ?_⟩, ?_⟩, hv⟩
              · simp only [Seg.ok, Bool.and_eq_true]
                refine ⟨hl, ?_⟩
                simp only [List.all_eq_true]
                intro a hamem
                exact List.mem_takeWhile_imp hamem
              · rw [ha]
                exact head_sep_word_dropWhile c _ rest
            · simp only [assemble, Seg.chars, List.nil_append, List.cons_append]
              rw [ha, List.takeWhile_append_dropWhile]
          · by_cases hd : c.isDigit = true
            · rw [if_neg hws, if_neg hop, if_neg hl, if_pos hd] at hsup
              simp only [Bool.and_eq_true, decide_eq_true_eq] at hsup
              obtain ⟨hcount, hsup'⟩ := hsup
              have hlen2 : (rest.dropWhile is_num_continue).length ≤ n :=
                Nat.le_trans (List.dropWhile_sublist _).length_le hlen'
              obtain ⟨pieces, trailing, hv, ha⟩ := ih _ hlen2 hsup'
              refine ⟨([], Seg.num c (rest.takeWhile is_num_continue)) :: pieces,
                trailing, ?_, ?_⟩
              · simp only [valid, Bool.and_eq_true]
                refine ⟨⟨⟨rfl, ?_⟩, ?_⟩, hv⟩
                · simp only [Seg.ok, Bool.and_eq_true, decide_eq_true_eq]
                  refine ⟨⟨hd, ?_⟩, hcount⟩
                  simp only [List.all_eq_true]
                  intro a hamem
                  exact List.mem_takeWhile_imp hamem
                · rw [ha]
                  exact head_sep_num_dropWhile c _ rest
              · simp only [assemble, Seg.chars, List.nil_append, List.cons_append]
                rw [ha, List.takeWhile_append_dropWhile]
            · rw [if_neg hws, if_neg hop, if_neg hl, if_neg hd] at hsup
              exact absurd hsup (by simp)

theorem valid_ws_facts : ∀ (pieces : List (List Char × Seg)) (trailing : List Char),
    valid pieces trailing = true →
    (∀ p ∈ pieces, ∀ c ∈ p.1, c.isWhitespace = true) ∧
      (∀ c ∈ trailing, c.isWhitespace = true) := by
  intro pieces
  induction pieces with
  | nil =>
    intro trailing hv
    simp only [valid] at hv
    exact ⟨by simp, by simpa [List.all_eq_true] using hv⟩
  | cons p rest ih =>
    intro trailing hv
    obtain ⟨ws, s⟩ := p
    simp only [valid, Bool.and_eq_true] at hv
    obtain ⟨⟨⟨hws, _⟩, _⟩, hrest⟩ := hv
    obtain ⟨ih1, ih2⟩ := ih trailing hrest
    refine ⟨?_, ih2⟩
    intro q hq
    rcases List.mem_cons.mp hq with rfl | hq'
    · simpa [List.all_eq_true] using hws
    · exact ih1 q hq'

theorem seg_chars_ne_nil (s : Seg) : s.chars ≠ [] := by
  cases s <;> simp [Seg.chars]

theorem op_token_ne_identifier (c : Char) (s : String) :
    op_token c ≠ Token.Identifier s := by
  unfold op_token
  repeat' split
  all_goals simp

/-- Claim C1: the claim asserts that for input `"1.2.3"` tokenization surfaces
the malformed-numeric condition as an explicit recoverable error result
distinct from end-of-sequence and never crashes the process.  The code does
the opposite: `read_number` calls `.unwrap()` on the failed `f64` parse, so
the first `next_token` call on `"1.2.3"` panics the whole process (modelled
as `LexResult.panic`), no recoverable error value distinct from `None` exists
in the code, and the driver loop emits no token.  This theorem evaluates the
code at the failing input. -/
theorem c1_malformed_number_crashes :
    next_token "1.2.3".data = (LexResult.panic, []) ∧
      tokenize "1.2.3".data = ([], true) ∧
      LexResult.panic ≠ LexResult.eof := by
  refine ⟨by decide, by decide, by decide⟩

/-- Claim C2: whenever the character committed at the dispatch step is none of
the nine single-character operators, not a word-start character, and not a
decimal digit, that `next_token` call returns the end-of-sequence signal
(`LexResult.eof`, Rust `None`), the same value the caller receives at true
end-of-input (`next_token []`). -/
theorem c2_unrecognized_gives_eof {input : List Char} {c : Char} {tl : List Char}
    (hs : skip_whitespace input = c :: tl) (hop : is_op c = false)
    (hl : is_letter c = false) (hd : c.isDigit = false) :
    (next_token input).1 = LexResult.eof ∧
      (next_token input).1 = (next_token []).1 := by
  have hc : c.isWhitespace = false := skip_whitespace_head_not_ws hs
  have he : next_token input = next_token (c :: tl) := by
    rw [next_token_skip input, hs]
  rw [he, next_token_unrecognized tl hc hop hl hd]
  exact ⟨rfl, rfl⟩

/-- Witness for C2 at the concrete input `".x"`: the committed character `'.'`
is a standalone dot not following a leading digit; the call returns the
end-of-sequence value. -/
theorem c2_unrecognized_gives_eof_witness :
    skip_whitespace ".x".data = '.' :: ['x'] ∧ is_op '.' = false ∧
      is_letter '.' = false ∧ Char.isDigit '.' = false ∧
      (next_token ".x".data).1 = LexResult.eof ∧
      (next_token ".x".data).1 = (next_token []).1 := by
  refine ⟨by decide, by decide, by decide, by decide, ?_, ?_⟩
  · exact (@c2_unrecognized_gives_eof ".x".data '.' ['x']
      (by decide) (by decide) (by decide) (by decide)).1
  · exact (@c2_unrecognized_gives_eof ".x".data '.' ['x']
      (by decide) (by decide) (by decide) (by decide)).2

/-- Claim C3: tokenizing `"let x = 3 + 4;"` yields exactly
`Let, Identifier "x", Equal, NumberLiteral 3.0, Plus, NumberLiteral 4.0,
SemiColon`; the driver loop then stops on the end-of-sequence signal (the
`false` flag records that lexing ended at `eof`, not by a panic). -/
theorem c3_end_to_end_scenario :
    tokenize "let x = 3 + 4;".data =
      ([Token.Let, Token.Identifier "x", Token.Equal, Token.NumberLiteral 3,
        Token.Plus, Token.NumberLiteral 4, Token.SemiColon], false) ∧
      next_token [] = (LexResult.eof, []) := by
  refine ⟨by decide, by decide⟩

/-- Claim C8: tokenizing the empty string yields the end-of-sequence signal
on the first `next_token` call, and the driver loop produces no tokens. -/
theorem c8_empty_input :
    next_token [] = (LexResult.eof, []) ∧ tokenize [] = ([], false) := by
  refine ⟨by decide, by decide⟩

/-- Claim C9: the end-of-sequence value returned for an unrecognized
character is not sticky.  In general the call consumes the offending
character (the remaining input afterwards is exactly the text past it), and
concretely for `"#a"` the first call returns the end-of-sequence value with
`['a']` remaining while the next call returns `Identifier "a"`. -/
theorem c9_eof_not_sticky :
    (∀ (input : List Char) (c : Char) (tl : List Char),
      skip_whitespace input = c :: tl → is_op c = false → is_letter c = false →
      c.isDigit = false → next_token input = (LexResult.eof, tl)) ∧
      next_token "#a".data = (LexResult.eof, ['a']) ∧
      next_token ['a'] = (LexResult.token (Token.Identifier "a"), []) := by
  refine ⟨?_, by decide, by decide⟩
  intro input c tl hs hop hl hd
  have hc : c.isWhitespace = false := skip_whitespace_head_not_ws hs
  rw [next_token_skip input, hs]
  exact next_token_unrecognized tl hc hop hl hd

/-- Witness for C9 at the concrete input `"#a"`: the general part of the
claim instantiated at `'#'`, whose hypotheses hold by computation. -/
theorem c9_eof_not_sticky_witness :
    next_token "#a".data = (LexResult.eof, ['a']) :=
  c9_eof_not_sticky.1 "#a".data '#' ['a'] (by decide) (by decide) (by decide) (by decide)

/-- Claim C5: when the dispatched character is a decimal digit, the tokenizer
consumes the maximal following run of decimal digits and `.` characters
(`takeWhile is_num_continue`), seeds it with the dispatched character, parses
the accumulated string as a 64-bit float, and emits `NumberLiteral` of that
value; in particular `"3.14"` yields `NumberLiteral 3.14` and `"42"` yields
`NumberLiteral 42.0`. -/
theorem c5_scan_number :
    (∀ (input : List Char) (c : Char) (tl : List Char) (v : ℚ),
      skip_whitespace input = c :: tl → c.isDigit = true →
      parse_f64 (String.mk (c :: tl.takeWhile is_num_continue)) = some v →
      next_token input =
        (LexResult.token (Token.NumberLiteral v), tl.dropWhile is_num_continue)) ∧
      tokenize "3.14".data = ([Token.NumberLiteral 3.14], false) ∧
      tokenize "42".data = ([Token.NumberLiteral 42], false) := by
  refine ⟨?_, ?_, by decide⟩
  · intro input c tl v hs hd hp
    have he : next_token input = next_token (c :: tl) := by
      rw [next_token_skip input, hs]
    rw [he]
    exact next_token_digit_some tl hd hp
  · rw [show (3.14 : ℚ) = mkRat 157 50 by norm_num]
    decide

/-- Witness for C5 at the concrete input `"3.14"`: the dispatched character
is `'3'`, the accumulated maximal run is `"3.14"`, its parse succeeds, and
the general part of the claim yields `NumberLiteral 3.14`. -/
theorem c5_scan_number_witness :
    next_token "3.14".data =
      (LexResult.token (Token.NumberLiteral 3.14), ([] : List Char)) := by
  have hp : parse_f64 (String.mk ('3' :: ".14".data.takeWhile is_num_continue)) =
      some (3.14 : ℚ) := by
    rw [show (3.14 : ℚ) = mkRat 157 50 by norm_num]
    decide
  have hmain := c5_scan_number.1 "3.14".data '3' ".14".data (3.14 : ℚ) (by decide)
    (by decide) hp
  rw [hmain]
  rw [show ".14".data.dropWhile is_num_continue = ([] : List Char) by decide]

/-- Claim C6: keyword lookup is a total pure function on scanned identifier
strings: it returns `Let` exactly when the string equals `"let"`
(case-sensitive, no trimming), and `Identifier` wrapping the exact scanned
text for every other string; in particular `"let"` yields `Let` (never
`Identifier "let"`) and `"letx"` yields `Identifier "letx"`. -/
theorem c6_lookup_keyword_total :
    (∀ s : String, (lookup_keyword s = Token.Let ↔ s = "let") ∧
      (s ≠ "let" → lookup_keyword s = Token.Identifier s)) ∧
      lookup_keyword "let" = Token.Let ∧
      lookup_keyword "let" ≠ Token.Identifier "let" ∧
      lookup_keyword "letx" = Token.Identifier "letx" := by
  refine ⟨?_, by decide, by decide, by decide⟩
  intro s
  refine ⟨⟨?_, ?_⟩, ?_⟩
  · intro h
    by_cases hs : s = "let"
    · exact hs
    · rw [lookup_keyword, if_neg hs] at h
      exact absurd h (by simp)
  · intro h
    rw [lookup_keyword, if_pos h]
  · intro h
    rw [lookup_keyword, if_neg h]

/-- Witness for C6 at the concrete string `"letx"`: it differs from `"let"`,
so the lookup wraps the exact text in `Identifier`. -/
theorem c6_lookup_keyword_total_witness :
    lookup_keyword "letx" = Token.Identifier "letx" :=
  (c6_lookup_keyword_total.1 "letx").2 (by decide)

/-- Claim C10: every `Identifier` token ever emitted by `next_token` wraps a
non-empty string whose first character is alphabetic or `'_'` (`is_letter`),
whose remaining characters are alphanumeric or `'_'` (`is_word_continue`),
and which is not equal to `"let"`. -/
theorem c10_identifier_shape {input : List Char} {s : String} {rest : List Char}
    (h : next_token input = (LexResult.token (Token.Identifier s), rest)) :
    (∃ c cs, s.data = c :: cs ∧ is_letter c = true ∧
      (∀ d ∈ cs, is_word_continue d = true)) ∧ s ≠ "let" := by
  cases hs : skip_whitespace input with
  | nil =>
    rw [next_token_skip input, hs] at h
    exact absurd h (by simp [next_token, skip_whitespace, read_char])
  | cons c tl =>
    have hc : c.isWhitespace = false := skip_whitespace_head_not_ws hs
    rw [next_token_skip input, hs] at h
    by_cases hop : is_op c = true
    · rw [next_token_op tl hop] at h
      have h1 : op_token c = Token.Identifier s := by
        have := congrArg Prod.fst h
        simpa using this
      exact absurd h1 (op_token_ne_identifier c s)
    · have hop' : is_op c = false := by
        cases hq : is_op c
        · rfl
        · exact absurd hq hop
      by_cases hl : is_letter c = true
      · rw [next_token_word tl hl] at h
        have h1 : lookup_keyword (String.mk (c :: tl.takeWhile is_word_continue)) =
            Token.Identifier s := by
          have := congrArg Prod.fst h
          simpa using this
        by_cases hk : String.mk (c :: tl.takeWhile is_word_continue) = "let"
        · rw [lookup_keyword, if_pos hk] at h1
          exact absurd h1 (by simp)
        · rw [lookup_keyword, if_neg hk] at h1
          have h2 : String.mk (c :: tl.takeWhile is_word_continue) = s := by
            simpa using h1
          refine ⟨⟨c, tl.takeWhile is_word_continue, ?_, hl, ?_⟩, ?_⟩
          · rw [← h2]
          · intro d hd
            exact List.mem_takeWhile_imp hd
          · rw [← h2]
            exact hk
      · have hl' : is_letter c = false := by
          cases hq : is_letter c
          · rfl
          · exact absurd hq hl
        by_cases hd : c.isDigit = true
        · rw [next_token_digit tl hd] at h
          cases hp : parse_f64 (String.mk (c :: tl.takeWhile is_num_continue)) with
          | some v =>
            rw [hp] at h
            have := congrArg Prod.fst h
            simp at this
          | none =>
            rw [hp] at h
            have := congrArg Prod.fst h
            simp at this
        · have hd' : c.isDigit = false := by
            cases hq : c.isDigit
            · rfl
            · exact absurd hq hd
          rw [next_token_unrecognized tl hc hop' hl' hd'] at h
          have := congrArg Prod.fst h
          simp at this

/-- Witness for C10 at the concrete input `"ab cd"`: the first emitted token
is `Identifier "ab"`, and the claim's shape facts follow by applying the
theorem there. -/
theorem c10_identifier_shape_witness :
    (∃ c cs, ("ab" : String).data = c :: cs ∧ is_letter c = true ∧
      (∀ d ∈ cs, is_word_continue d = true)) ∧ ("ab" : String) ≠ "let" :=
  @c10_identifier_shape "ab cd".data "ab" " cd".data (by decide)

/-- Claim C4 counterexample: the claim quantifies over source texts containing
only supported characters, listing `'.'` inside digit-initial runs as
supported.  The input `"1.2.3"` consists only of decimal digits and `'.'`
characters inside a digit-initial run, yet the lexer emits no token at all
and the process panics (flag `true`), so its five characters belong to no
emitted token and are not skipped as whitespace: the claimed partition of the
source fails. -/
theorem c4_counterexample :
    (∀ c ∈ "1.2.3".data, c.isDigit = true ∨ c = '.') ∧
      "1.2.3".data.head? = some '1' ∧ Char.isDigit '1' = true ∧
      "1.2.3".data ≠ [] ∧
      tokenize "1.2.3".data = ([], true) := by
  refine ⟨by decide, by decide, by decide, by decide, by decide⟩

/-- Claim C4 as amended: for every source text that decomposes into
whitespace, operator characters, maximal word runs, and maximal digit-initial
numeric runs containing at most one `.` (the `supported` predicate), the
characters consumed by the emitted tokens together with the characters
skipped as whitespace partition the source exactly: the text is literally
reconstructed as one whitespace-run-plus-token-characters piece per emitted
token followed by trailing whitespace, so every character belongs to exactly
one token or is skipped as whitespace, none is lost and none is consumed
twice, and lexing ends at end-of-sequence rather than by truncation or
panic. -/
theorem c4_partition_amended {input : List Char} (h : supported input = true) :
    ∃ (pieces : List (List Char × Seg)) (trailing : List Char),
      assemble pieces trailing = input ∧
      tokenize input = (pieces.map fun p => p.2.token, false) ∧
      (∀ p ∈ pieces, (∀ c ∈ p.1, c.isWhitespace = true) ∧ p.2.chars ≠ []) ∧
      ∀ c ∈ trailing, c.isWhitespace = true := by
  obtain ⟨pieces, trailing, hv, ha⟩ :=
    supported_decomp input.length input (Nat.le_refl _) h
  obtain ⟨hw1, hw2⟩ := valid_ws_facts pieces trailing hv
  refine ⟨pieces, trailing, ha, ?_, ?_, hw2⟩
  · rw [← ha]
    exact tokenize_assemble pieces trailing hv
  · intro p hp
    exact ⟨hw1 p hp, seg_chars_ne_nil p.2⟩

/-- Witness for the amended C4 at the concrete input `"let x = 3 + 4;"`,
whose characters are all supported. -/
theorem c4_partition_amended_witness :
    supported "let x = 3 + 4;".data = true ∧
      ∃ (pieces : List (List Char × Seg)) (trailing : List Char),
        assemble pieces trailing = "let x = 3 + 4;".data ∧
        tokenize "let x = 3 + 4;".data = (pieces.map fun p => p.2.token, false) ∧
        (∀ p ∈ pieces, (∀ c ∈ p.1, c.isWhitespace = true) ∧ p.2.chars ≠ []) ∧
        ∀ c ∈ trailing, c.isWhitespace = true := by
  have hsup : supported "let x = 3 + 4;".data = true := by
    simp [supported, is_op, is_letter, is_word_continue, is_num_continue]
  exact ⟨hsup, c4_partition_amended hsup⟩

/-- Claim C7: two interleavings of the same token segments with different
whitespace runs (both valid, i.e. whitespace is whitespace, segments are
well-formed, and no two adjacent word-continue or digit/`.` characters lose
their separating whitespace — the `valid` delimitation condition) tokenize to
the same token sequence.  Inserting or removing whitespace runs between
tokens therefore never changes the result. -/
theorem c7_whitespace_transparency {pieces₁ pieces₂ : List (List Char × Seg)}
    {trailing₁ trailing₂ : List Char}
    (h₁ : valid pieces₁ trailing₁ = true) (h₂ : valid pieces₂ trailing₂ = true)
    (hsegs : pieces₁.map Prod.snd = pieces₂.map Prod.snd) :
    tokenize (assemble pieces₁ trailing₁) = tokenize (assemble pieces₂ trailing₂) := by
  rw [tokenize_assemble _ _ h₁, tokenize_assemble _ _ h₂]
  have hm : (pieces₁.map fun p => p.2.token) = pieces₂.map fun p => p.2.token := by
    have h3 := congrArg (List.map Seg.token) hsegs
    simpa [List.map_map, Function.comp] using h3
  rw [hm]

/-- Witness for C7: the texts `"a b"` and `"a  b "` carry the same segments
`a` and `b` under different whitespace, and tokenize identically. -/
theorem c7_whitespace_transparency_witness :
    valid [(([] : List Char), Seg.word 'a' []), ([' '], Seg.word 'b' [])] [] = true ∧
      valid [(([] : List Char), Seg.word 'a' []), ([' ', ' '], Seg.word 'b' [])] [' '] = true ∧
      assemble [(([] : List Char), Seg.word 'a' []), ([' '], Seg.word 'b' [])] [] = "a b".data ∧
      assemble [(([] : List Char), Seg.word 'a' []), ([' ', ' '], Seg.word 'b' [])] [' '] =
        "a  b ".data ∧
      tokenize (assemble [(([] : List Char), Seg.word 'a' []), ([' '], Seg.word 'b' [])] []) =
        tokenize (assemble
          [(([] : List Char), Seg.word 'a' []), ([' ', ' '], Seg.word 'b' [])] [' ']) := by
  refine ⟨by decide, by decide, by decide, by decide, ?_⟩
  exact c7_whitespace_transparency (by decide) (by decide) (by decide)

end RustLexer
